import Mathlib

/-!
Verification of the batch query-execution driver in
`pyserini/search/jass/__main__.py`.

The orchestration loop (the `with output_writer:` block) is shallowly
embedded as a recursive function producing an observable event trace:
one `enter` event per loop iteration, one `searchCall` / `batchCall`
event per backend invocation, one `write` event per sink dispatch, and a
`fail` event when an exception aborts the loop.  External collaborators
(`searcher`, `output_writer`, `query_iterator`) are modelled through
their interfaces only, as the spec prescribes.
-/

namespace JassRun

/-- A topic identifier as produced by the query iterator: an opaque
string or integer id (spec data model).  The code applies Python
`str(...)` to it in batch mode, so the two cases must stay distinct. -/
inductive TopicId where
  | intId (n : Int)
  | strId (s : String)
deriving DecidableEq, Repr

/-- Python `str(topic_id)` as used in `batch_topic_ids.append(str(topic_id))`. -/
def pyStr : TopicId → String
  | .intId n => toString n
  | .strId s => s

/-- An exception aborting the run loop: either an exception raised by the
backend (`search` / `batch_search`), or the `KeyError` that
`results[id_]` would raise on a missing key. -/
inductive RunError (E : Type) where
  | backend (e : E)
  | keyError (id : String)
deriving DecidableEq

/-- The search backend interface (`JASSv2Searcher`), an external
collaborator.  `batch_search` returns a Python dict from stringified
topic id to hits; a dict (unique keys) is modelled as an association
list, with `List.lookup` playing the role of `results[id_]`.  Fallible
calls return `Except`. -/
structure Backend (H E : Type) where
  search : String → Int → Int → Except E H
  batch_search : List String → List String → Int → Int → Int → Except E (List (String × H))

/-- The run configuration: `args.batch_size`, `args.threads`,
`args.hits` and `args.rho`, all parsed with `type=int`. -/
structure Config where
  batch_size : Int
  threads : Int
  hits : Int
  rho : Int
deriving DecidableEq, Repr

/-- Observable events of one execution of the run loop. -/
inductive Ev (H E : Type) where
  | enter (i : Nat) (accIds accTexts : List String)
  | searchCall (text : String) (k rho : Int)
  | batchCall (texts ids : List String) (k rho th : Int)
  | write (id : TopicId) (hits : H)
  | fail (e : RunError E)
deriving DecidableEq

/-- The comprehension `results = [(id_, results[id_]) for id_ in
batch_topic_ids]`: look each accumulated id up in the returned mapping,
left to right, raising `KeyError` on the first missing key (in which
case no pair is produced, as the comprehension is built before any
write happens). -/
def reproject {H E : Type} (m : List (String × H)) : List String → Except (RunError E) (List (String × H))
  | [] => .ok []
  | id :: rest =>
    match List.lookup id m with
    | none => .error (.keyError id)
    | some h =>
      match reproject m rest with
      | .error e => .error e
      | .ok tl => .ok ((id, h) :: tl)

/-- The body of `for index, (topic_id, text) in enumerate(...)`.
Arguments: the fixed `N = len(topics.keys())`, the running `index`, the
accumulators `batch_topic_ids` / `batch_topics` (ids first), and the
topics still to be consumed.  Mirrors the source line by line:
single-mode branch when `batch_size <= 1 and threads <= 1`; otherwise
append to the accumulators and flush when `(index + 1) % batch_size == 0`
or `index == N - 1`. -/
def runLoop {H E : Type} (cfg : Config) (be : Backend H E) (N : Nat) :
    Nat → List String → List String → List (TopicId × String) → List (Ev H E)
  | _, _, _, [] => []
  | i, accIds, accTexts, (tid, text) :: rest =>
    Ev.enter i accIds accTexts ::
    (if cfg.batch_size ≤ 1 ∧ cfg.threads ≤ 1 then
      Ev.searchCall text cfg.hits cfg.rho ::
      (match be.search text cfg.hits cfg.rho with
       | .error e => [Ev.fail (.backend e)]
       | .ok hits => Ev.write tid hits :: runLoop cfg be N (i + 1) accIds accTexts rest)
    else
      let accIds' := accIds ++ [pyStr tid]
      let accTexts' := accTexts ++ [text]
      if ((i : Int) + 1) % cfg.batch_size = 0 ∨ (i : Int) = (N : Int) - 1 then
        Ev.batchCall accTexts' accIds' cfg.hits cfg.rho cfg.threads ::
        (match be.batch_search accTexts' accIds' cfg.hits cfg.rho cfg.threads with
         | .error e => [Ev.fail (.backend e)]
         | .ok m =>
           match reproject m accIds' with
           | .error e => [Ev.fail e]
           | .ok rs => rs.map (fun p => Ev.write (.strId p.1) p.2) ++ runLoop cfg be N (i + 1) [] [] rest)
      else
        runLoop cfg be N (i + 1) accIds' accTexts' rest)

/-- The whole loop, as entered from the top of the `with` block: index
`0`, both accumulators empty, and `N` the total topic count (the
iterator and `topics.keys()` come from the same query iterator, so the
count equals the sequence length). -/
def run {H E : Type} (cfg : Config) (be : Backend H E) (topics : List (TopicId × String)) : List (Ev H E) :=
  runLoop cfg be topics.length 0 [] [] topics

/-- The sink dispatches of a trace: the `output_writer.write(topic, hits)` calls. -/
def writesOf {H E : Type} : List (Ev H E) → List (TopicId × H)
  | [] => []
  | .write i h :: evs => (i, h) :: writesOf evs
  | _ :: evs => writesOf evs

/-- The errors of a trace (at most one: the loop stops at the first). -/
def errorsOf {H E : Type} : List (Ev H E) → List (RunError E)
  | [] => []
  | .fail e :: evs => e :: errorsOf evs
  | _ :: evs => errorsOf evs

/-- The id lists passed to `searcher.batch_search`, in call order. -/
def batchIdsOf {H E : Type} : List (Ev H E) → List (List String)
  | [] => []
  | .batchCall _ ids _ _ _ :: evs => ids :: batchIdsOf evs
  | _ :: evs => batchIdsOf evs

/-- The query texts passed to `searcher.search`, in call order. -/
def searchCallsOf {H E : Type} : List (Ev H E) → List String
  | [] => []
  | .searchCall t _ _ :: evs => t :: searchCallsOf evs
  | _ :: evs => searchCallsOf evs

/-- The loop-iteration entries: the state `(index, batch_topic_ids,
batch_topics)` at the start of each iteration. -/
def entersOf {H E : Type} : List (Ev H E) → List (Nat × List String × List String)
  | [] => []
  | .enter i a t :: evs => (i, a, t) :: entersOf evs
  | _ :: evs => entersOf evs

/-- Events on the output writer resource. -/
inductive WEv (H : Type) where
  | opened
  | write (id : TopicId) (hits : H)
  | closed
deriving DecidableEq

/-- The writer-resource trace of a run: `with output_writer:` opens the
writer before the loop and Python's context-manager protocol runs
`__exit__` on every exit path, normal completion or propagated
exception, so `closed` follows the writes unconditionally. -/
def runTrace {H E : Type} (cfg : Config) (be : Backend H E) (topics : List (TopicId × String)) : List (WEv H) :=
  WEv.opened :: ((writesOf (run cfg be topics)).map fun p => WEv.write p.1 p.2) ++ [WEv.closed]

/-- The default output path built when `args.output is None`:
`'.'.join(['run', args.topics, '_'.join(['rho', str(args.rho)]), 'txt'])`. -/
def default_output_path (topics : String) (rho : Int) : String :=
  String.intercalate "." ["run", topics, String.intercalate "_" ["rho", toString rho], "txt"]

/-- `output_path = args.output`, falling back on the default name. -/
def output_path_of (output : Option String) (topics : String) (rho : Int) : String :=
  match output with
  | some p => p
  | none => default_output_path topics rho

/-- The `search` half of the backend contract (spec 4.2): a call never
raises. -/
def BackendSearchOk {H E : Type} (be : Backend H E) : Prop :=
  ∀ t k r, ∃ h, be.search t k r = Except.ok h

/-- The `batch_search` half of the backend contract (spec 4.2): on
matched-length inputs the call returns a mapping containing one entry
per input id. -/
def BackendBatchOk {H E : Type} (be : Backend H E) : Prop :=
  ∀ texts ids k r th, texts.length = ids.length →
    ∃ m, be.batch_search texts ids k r th = Except.ok m ∧ ∀ id ∈ ids, (List.lookup id m).isSome

/-- The full backend contract of spec 4.2. -/
def BackendOk {H E : Type} (be : Backend H E) : Prop :=
  BackendSearchOk be ∧ BackendBatchOk be

/-- A deterministic backend satisfying the contract, built from a pure
per-query hit function: `batch_search` keys its resulting mapping by the
submitted ids, as the real searcher keys its dict by qid. -/
def pureBackend {H : Type} (E : Type) (f : String → Int → Int → H) : Backend H E where
  search := fun t k r => Except.ok (f t k r)
  batch_search := fun texts ids k r _th => Except.ok (ids.zip (texts.map (fun t => f t k r)))

/-- Reference grouping, written exactly as the spec states the flush
rule: append each element to the open group; close the group when its
size reaches `b` or the element is the last of the stream. -/
def chunksAux {α : Type} (b : Nat) (acc : List α) : List α → List (List α)
  | [] => []
  | [x] => [acc ++ [x]]
  | x :: y :: rest =>
    if acc.length + 1 = b then (acc ++ [x]) :: chunksAux b [] (y :: rest)
    else chunksAux b (acc ++ [x]) (y :: rest)

/-! ### Observer lemmas -/

/-- One-step unfolding of `runLoop` on a non-empty topic list, keeping
the recursive calls folded. -/
theorem runLoop_cons_eq {H E : Type} (cfg : Config) (be : Backend H E) (N i : Nat)
    (accIds accTexts : List String) (tid : TopicId) (text : String)
    (rest : List (TopicId × String)) :
    runLoop cfg be N i accIds accTexts ((tid, text) :: rest) =
      Ev.enter i accIds accTexts ::
      (if cfg.batch_size ≤ 1 ∧ cfg.threads ≤ 1 then
        Ev.searchCall text cfg.hits cfg.rho ::
        (match be.search text cfg.hits cfg.rho with
         | .error e => [Ev.fail (.backend e)]
         | .ok hits => Ev.write tid hits :: runLoop cfg be N (i + 1) accIds accTexts rest)
      else
        if ((i : Int) + 1) % cfg.batch_size = 0 ∨ (i : Int) = (N : Int) - 1 then
          Ev.batchCall (accTexts ++ [text]) (accIds ++ [pyStr tid]) cfg.hits cfg.rho cfg.threads ::
          (match be.batch_search (accTexts ++ [text]) (accIds ++ [pyStr tid]) cfg.hits cfg.rho cfg.threads with
           | .error e => [Ev.fail (.backend e)]
           | .ok m =>
             match reproject m (accIds ++ [pyStr tid]) with
             | .error e => [Ev.fail e]
             | .ok rs => rs.map (fun p => Ev.write (.strId p.1) p.2) ++ runLoop cfg be N (i + 1) [] [] rest)
        else
          runLoop cfg be N (i + 1) (accIds ++ [pyStr tid]) (accTexts ++ [text]) rest) := rfl


theorem writesOf_append {H E : Type} (l₁ l₂ : List (Ev H E)) :
    writesOf (l₁ ++ l₂) = writesOf l₁ ++ writesOf l₂ := by
  induction l₁ with
  | nil => rfl
  | cons e l ih => cases e <;> simp [writesOf, ih]

theorem errorsOf_append {H E : Type} (l₁ l₂ : List (Ev H E)) :
    errorsOf (l₁ ++ l₂) = errorsOf l₁ ++ errorsOf l₂ := by
  induction l₁ with
  | nil => rfl
  | cons e l ih => cases e <;> simp [errorsOf, ih]

theorem batchIdsOf_append {H E : Type} (l₁ l₂ : List (Ev H E)) :
    batchIdsOf (l₁ ++ l₂) = batchIdsOf l₁ ++ batchIdsOf l₂ := by
  induction l₁ with
  | nil => rfl
  | cons e l ih => cases e <;> simp [batchIdsOf, ih]

theorem searchCallsOf_append {H E : Type} (l₁ l₂ : List (Ev H E)) :
    searchCallsOf (l₁ ++ l₂) = searchCallsOf l₁ ++ searchCallsOf l₂ := by
  induction l₁ with
  | nil => rfl
  | cons e l ih => cases e <;> simp [searchCallsOf, ih]

theorem entersOf_append {H E : Type} (l₁ l₂ : List (Ev H E)) :
    entersOf (l₁ ++ l₂) = entersOf l₁ ++ entersOf l₂ := by
  induction l₁ with
  | nil => rfl
  | cons e l ih => cases e <;> simp [entersOf, ih]

theorem writesOf_map_write {H E α : Type} (rs : List α) (g : α → TopicId) (h : α → H) :
    writesOf (E := E) (rs.map fun p => Ev.write (g p) (h p)) = rs.map fun p => (g p, h p) := by
  induction rs with
  | nil => rfl
  | cons r rs ih => simp [writesOf, ih]

theorem errorsOf_map_write {H E α : Type} (rs : List α) (g : α → TopicId) (h : α → H) :
    errorsOf (E := E) (rs.map fun p => Ev.write (g p) (h p)) = [] := by
  induction rs with
  | nil => rfl
  | cons r rs ih => simp [errorsOf, ih]

theorem batchIdsOf_map_write {H E α : Type} (rs : List α) (g : α → TopicId) (h : α → H) :
    batchIdsOf (E := E) (rs.map fun p => Ev.write (g p) (h p)) = [] := by
  induction rs with
  | nil => rfl
  | cons r rs ih => simp [batchIdsOf, ih]

theorem searchCallsOf_map_write {H E α : Type} (rs : List α) (g : α → TopicId) (h : α → H) :
    searchCallsOf (E := E) (rs.map fun p => Ev.write (g p) (h p)) = [] := by
  induction rs with
  | nil => rfl
  | cons r rs ih => simp [searchCallsOf, ih]

theorem entersOf_map_write {H E α : Type} (rs : List α) (g : α → TopicId) (h : α → H) :
    entersOf (E := E) (rs.map fun p => Ev.write (g p) (h p)) = [] := by
  induction rs with
  | nil => rfl
  | cons r rs ih => simp [entersOf, ih]


/-- Equation kit: how each observer steps over one event, with the tail
kept opaque. -/
theorem writesOf_cons_enter {H E : Type} (i : Nat) (a t : List String) (evs : List (Ev H E)) :
    writesOf (Ev.enter i a t :: evs) = writesOf evs := rfl

theorem writesOf_cons_searchCall {H E : Type} (s : String) (k r : Int) (evs : List (Ev H E)) :
    writesOf (Ev.searchCall s k r :: evs) = writesOf evs := rfl

theorem writesOf_cons_batchCall {H E : Type} (ts ids : List String) (k r th : Int) (evs : List (Ev H E)) :
    writesOf (Ev.batchCall ts ids k r th :: evs) = writesOf evs := rfl

theorem writesOf_cons_write {H E : Type} (id : TopicId) (h : H) (evs : List (Ev H E)) :
    writesOf (Ev.write id h :: evs) = (id, h) :: writesOf evs := rfl

theorem writesOf_cons_fail {H E : Type} (e : RunError E) (evs : List (Ev H E)) :
    writesOf (Ev.fail e :: evs) = writesOf evs := rfl

theorem errorsOf_cons_enter {H E : Type} (i : Nat) (a t : List String) (evs : List (Ev H E)) :
    errorsOf (Ev.enter i a t :: evs) = errorsOf evs := rfl

theorem errorsOf_cons_searchCall {H E : Type} (s : String) (k r : Int) (evs : List (Ev H E)) :
    errorsOf (Ev.searchCall s k r :: evs) = errorsOf evs := rfl

theorem errorsOf_cons_batchCall {H E : Type} (ts ids : List String) (k r th : Int) (evs : List (Ev H E)) :
    errorsOf (Ev.batchCall ts ids k r th :: evs) = errorsOf evs := rfl

theorem errorsOf_cons_write {H E : Type} (id : TopicId) (h : H) (evs : List (Ev H E)) :
    errorsOf (Ev.write id h :: evs) = errorsOf evs := rfl

theorem errorsOf_cons_fail {H E : Type} (e : RunError E) (evs : List (Ev H E)) :
    errorsOf (Ev.fail e :: evs) = e :: errorsOf evs := rfl

theorem batchIdsOf_cons_enter {H E : Type} (i : Nat) (a t : List String) (evs : List (Ev H E)) :
    batchIdsOf (Ev.enter i a t :: evs) = batchIdsOf evs := rfl

theorem batchIdsOf_cons_searchCall {H E : Type} (s : String) (k r : Int) (evs : List (Ev H E)) :
    batchIdsOf (Ev.searchCall s k r :: evs) = batchIdsOf evs := rfl

theorem batchIdsOf_cons_batchCall {H E : Type} (ts ids : List String) (k r th : Int) (evs : List (Ev H E)) :
    batchIdsOf (Ev.batchCall ts ids k r th :: evs) = ids :: batchIdsOf evs := rfl

theorem batchIdsOf_cons_write {H E : Type} (id : TopicId) (h : H) (evs : List (Ev H E)) :
    batchIdsOf (Ev.write id h :: evs) = batchIdsOf evs := rfl

theorem batchIdsOf_cons_fail {H E : Type} (e : RunError E) (evs : List (Ev H E)) :
    batchIdsOf (Ev.fail e :: evs) = batchIdsOf evs := rfl

theorem searchCallsOf_cons_enter {H E : Type} (i : Nat) (a t : List String) (evs : List (Ev H E)) :
    searchCallsOf (Ev.enter i a t :: evs) = searchCallsOf evs := rfl

theorem searchCallsOf_cons_searchCall {H E : Type} (s : String) (k r : Int) (evs : List (Ev H E)) :
    searchCallsOf (Ev.searchCall s k r :: evs) = s :: searchCallsOf evs := rfl

theorem searchCallsOf_cons_batchCall {H E : Type} (ts ids : List String) (k r th : Int) (evs : List (Ev H E)) :
    searchCallsOf (Ev.batchCall ts ids k r th :: evs) = searchCallsOf evs := rfl

theorem searchCallsOf_cons_write {H E : Type} (id : TopicId) (h : H) (evs : List (Ev H E)) :
    searchCallsOf (Ev.write id h :: evs) = searchCallsOf evs := rfl

theorem searchCallsOf_cons_fail {H E : Type} (e : RunError E) (evs : List (Ev H E)) :
    searchCallsOf (Ev.fail e :: evs) = searchCallsOf evs := rfl

theorem entersOf_cons_enter {H E : Type} (i : Nat) (a t : List String) (evs : List (Ev H E)) :
    entersOf (Ev.enter i a t :: evs) = (i, a, t) :: entersOf evs := rfl

theorem entersOf_cons_searchCall {H E : Type} (s : String) (k r : Int) (evs : List (Ev H E)) :
    entersOf (Ev.searchCall s k r :: evs) = entersOf evs := rfl

theorem entersOf_cons_batchCall {H E : Type} (ts ids : List String) (k r th : Int) (evs : List (Ev H E)) :
    entersOf (Ev.batchCall ts ids k r th :: evs) = entersOf evs := rfl

theorem entersOf_cons_write {H E : Type} (id : TopicId) (h : H) (evs : List (Ev H E)) :
    entersOf (Ev.write id h :: evs) = entersOf evs := rfl

theorem entersOf_cons_fail {H E : Type} (e : RunError E) (evs : List (Ev H E)) :
    entersOf (Ev.fail e :: evs) = entersOf evs := rfl

/-- Equation kit for the reference grouping. -/
theorem chunksAux_nil {A : Type} (b : Nat) (acc : List A) : chunksAux b acc [] = [] := rfl

theorem chunksAux_singleton {A : Type} (b : Nat) (acc : List A) (x : A) :
    chunksAux b acc [x] = [acc ++ [x]] := rfl

theorem chunksAux_cons_cons {A : Type} (b : Nat) (acc : List A) (x y : A) (rest : List A) :
    chunksAux b acc (x :: y :: rest) =
      if acc.length + 1 = b then (acc ++ [x]) :: chunksAux b [] (y :: rest)
      else chunksAux b (acc ++ [x]) (y :: rest) := rfl

/-! ### Lookup and re-projection lemmas -/

theorem lookup_zip_isSome {H : Type} (id : String) :
    ∀ (ids : List String) (vals : List H), id ∈ ids → ids.length ≤ vals.length →
      (List.lookup id (ids.zip vals)).isSome
  | i₀ :: ids', v₀ :: vs', hmem, hlen => by
    by_cases h : id = i₀
    · simp [List.lookup, h]
    · have : id ∈ ids' := by
        rcases List.mem_cons.mp hmem with h' | h'
        · exact absurd h' h
        · exact h'
      have hne : (id == i₀) = false := beq_eq_false_iff_ne.mpr h
      simp only [List.zip_cons_cons, List.lookup, hne]
      exact lookup_zip_isSome id ids' vs' this (by simpa using hlen)

theorem lookup_cons_of_ne {H : Type} (k k₀ : String) (v : H) (m : List (String × H)) (h : k ≠ k₀) :
    List.lookup k ((k₀, v) :: m) = List.lookup k m := by
  simp [List.lookup, beq_eq_false_iff_ne.mpr h]

theorem reproject_congr {H E : Type} (m₁ m₂ : List (String × H))
    (hl : ∀ id, List.lookup id m₁ = List.lookup id m₂) :
    ∀ ids, reproject (E := E) m₁ ids = reproject m₂ ids
  | [] => rfl
  | id :: rest => by
    rw [reproject, reproject, hl id, reproject_congr m₁ m₂ hl rest]

theorem reproject_total {H E : Type} (m : List (String × H)) :
    ∀ ids, (∀ id ∈ ids, (List.lookup id m).isSome) →
      ∃ rs, reproject (E := E) m ids = Except.ok rs ∧ rs.map Prod.fst = ids
  | [], _ => ⟨[], rfl, rfl⟩
  | id :: rest, hcov => by
    obtain ⟨v, hv⟩ := Option.isSome_iff_exists.mp (hcov id (List.mem_cons_self id rest))
    obtain ⟨tl, htl, hfst⟩ :=
      reproject_total (E := E) m rest (fun i hi => hcov i (List.mem_cons_of_mem id hi))
    exact ⟨(id, v) :: tl, by rw [reproject, hv, htl], by simp [hfst]⟩

theorem reproject_cons_not_mem {H E : Type} (id₀ : String) (v : H) (m : List (String × H)) :
    ∀ ids, id₀ ∉ ids → reproject (E := E) ((id₀, v) :: m) ids = reproject m ids
  | [], _ => rfl
  | id :: rest, hnm => by
    have hne : id ≠ id₀ := fun h => hnm (h ▸ List.mem_cons_self id rest)
    rw [reproject, reproject, lookup_cons_of_ne id id₀ v m hne,
      reproject_cons_not_mem id₀ v m rest (fun h => hnm (List.mem_cons_of_mem id h))]

theorem reproject_zip_self {H E : Type} :
    ∀ (ids : List String) (vals : List H), ids.Nodup → ids.length = vals.length →
      reproject (E := E) (ids.zip vals) ids = Except.ok (ids.zip vals)
  | [], [], _, _ => rfl
  | i₀ :: ids', v₀ :: vs', hnd, hlen => by
    have hnm : i₀ ∉ ids' := (List.nodup_cons.mp hnd).1
    have : reproject (E := E) ((i₀, v₀) :: ids'.zip vs') ids' = reproject (ids'.zip vs') ids' :=
      reproject_cons_not_mem i₀ v₀ (ids'.zip vs') ids' hnm
    rw [List.zip_cons_cons, reproject]
    simp only [List.lookup, beq_self_eq_true]
    rw [this, reproject_zip_self ids' vs' (List.nodup_cons.mp hnd).2 (by simpa using hlen)]

theorem lookup_eq_of_perm_nodup {H : Type} {m₁ m₂ : List (String × H)} (hp : m₁.Perm m₂)
    (k : String) : (m₁.map Prod.fst).Nodup → List.lookup k m₁ = List.lookup k m₂ := by
  induction hp with
  | nil => intro _; rfl
  | cons x _p ih =>
    intro hnd
    obtain ⟨a, b⟩ := x
    by_cases h : k = a
    · simp [List.lookup, h]
    · rw [lookup_cons_of_ne k a b _ h, lookup_cons_of_ne k a b _ h]
      exact ih (by simp at hnd; exact hnd.2)
  | swap x y l =>
    intro hnd
    obtain ⟨a, b⟩ := x
    obtain ⟨c, d⟩ := y
    have hne : c ≠ a := by simp at hnd; exact fun h => (hnd.1.1 (h ▸ rfl)).elim
    by_cases h₁ : k = c
    · rw [h₁, lookup_cons_of_ne c a b _ hne]
      simp [List.lookup]
    · rw [lookup_cons_of_ne k c d _ h₁]
      by_cases h₂ : k = a
      · simp [List.lookup, h₂]
      · rw [lookup_cons_of_ne k a b _ h₂, lookup_cons_of_ne k a b _ h₂,
          lookup_cons_of_ne k c d _ h₁]
  | trans p₁ _p₂ ih₁ ih₂ =>
    intro hnd
    have hnd₂ := ((p₁.map Prod.fst).nodup_iff).mp hnd
    exact (ih₁ hnd).trans (ih₂ hnd₂)

/-! ### Arithmetic helpers for the flush condition -/

theorem mod_succ_eq_zero_iff (i b : Nat) (hb : 0 < b) : (i + 1) % b = 0 ↔ i % b + 1 = b := by
  have key : (i + 1) % b = (i % b + 1) % b := (Nat.mod_add_mod i b 1).symm
  have hlt : i % b < b := Nat.mod_lt _ hb
  constructor
  · intro h
    by_contra hne
    have : i % b + 1 < b := by omega
    rw [key, Nat.mod_eq_of_lt this] at h
    omega
  · intro h
    rw [key, h, Nat.mod_self]

theorem mod_succ_of_ne (i b : Nat) (hb : 0 < b) (h : i % b + 1 ≠ b) :
    (i + 1) % b = i % b + 1 := by
  have key : (i + 1) % b = (i % b + 1) % b := (Nat.mod_add_mod i b 1).symm
  have hlt : i % b < b := Nat.mod_lt _ hb
  rw [key, Nat.mod_eq_of_lt (by omega)]

theorem intMod_natCast_eq_zero (m : Nat) (bs : Int) (hbs : 0 ≤ bs) :
    ((m : Int) % bs = 0) ↔ m % bs.toNat = 0 := by
  have h : ((m % bs.toNat : Nat) : Int) = (m : Int) % ((bs.toNat : Nat) : Int) :=
    Int.natCast_mod m bs.toNat
  rw [Int.toNat_of_nonneg hbs] at h
  rw [← h]
  exact Int.natCast_eq_zero

/-- The loop's flush test, rephrased over naturals: with `batch_size ≥ 1`
it fires exactly when `(index + 1) % batch_size == 0` (as naturals) or
the current index is the last one. -/
theorem flushCond_iff (i N : Nat) (bs : Int) (hbs : 1 ≤ bs) :
    ((((i : Nat) : Int) + 1) % bs = 0 ∨ ((i : Nat) : Int) = ((N : Nat) : Int) - 1) ↔
      ((i + 1) % bs.toNat = 0 ∨ i + 1 = N) := by
  have h1 : (((i : Nat) : Int) + 1) = (((i + 1 : Nat) : Nat) : Int) := by push_cast; ring
  rw [h1, intMod_natCast_eq_zero (i + 1) bs (by omega)]
  constructor
  · rintro (h | h)
    · exact Or.inl h
    · exact Or.inr (by omega)
  · rintro (h | h)
    · exact Or.inl h
    · exact Or.inr (by omega)

/-! ### The pure backend meets the contract -/

theorem pureBackend_ok {H : Type} (E : Type) (f : String → Int → Int → H) :
    BackendOk (pureBackend E f) := by
  constructor
  · intro t k r
    exact ⟨f t k r, rfl⟩
  · intro texts ids k r th hlen
    refine ⟨ids.zip (texts.map fun t => f t k r), rfl, fun id hmem => ?_⟩
    exact lookup_zip_isSome id ids _ hmem (by simp [hlen])

/-! ### Single-mode lemmas -/

theorem runLoop_single_trace {H E : Type} (cfg : Config) (be : Backend H E) (f : String → H)
    (hmode : cfg.batch_size ≤ 1 ∧ cfg.threads ≤ 1)
    (hok : ∀ t, be.search t cfg.hits cfg.rho = Except.ok (f t)) (N : Nat) :
    ∀ (rest : List (TopicId × String)) (i : Nat) (accIds accTexts : List String),
      runLoop cfg be N i accIds accTexts rest =
        (rest.enumFrom i).flatMap fun p =>
          [Ev.enter p.1 accIds accTexts, Ev.searchCall p.2.2 cfg.hits cfg.rho,
            Ev.write p.2.1 (f p.2.2)]
  | [], _, _, _ => rfl
  | (tid, text) :: rest, i, a, t => by
    simp only [runLoop, if_pos hmode, hok text,
      runLoop_single_trace cfg be f hmode hok N rest (i + 1) a t]
    simp [List.enumFrom]

theorem writesOf_single {H E : Type} (cfg : Config) (be : Backend H E) (f : String → H)
    (hmode : cfg.batch_size ≤ 1 ∧ cfg.threads ≤ 1)
    (hok : ∀ t, be.search t cfg.hits cfg.rho = Except.ok (f t)) (N : Nat) :
    ∀ (rest : List (TopicId × String)) (i : Nat) (accIds accTexts : List String),
      writesOf (runLoop cfg be N i accIds accTexts rest) = rest.map fun p => (p.1, f p.2)
  | [], _, _, _ => rfl
  | (tid, text) :: rest, i, a, t => by
    simp only [runLoop, if_pos hmode, hok text]
    simp [writesOf, writesOf_single cfg be f hmode hok N rest (i + 1) a t]

theorem errorsOf_single {H E : Type} (cfg : Config) (be : Backend H E) (f : String → H)
    (hmode : cfg.batch_size ≤ 1 ∧ cfg.threads ≤ 1)
    (hok : ∀ t, be.search t cfg.hits cfg.rho = Except.ok (f t)) (N : Nat) :
    ∀ (rest : List (TopicId × String)) (i : Nat) (accIds accTexts : List String),
      errorsOf (runLoop cfg be N i accIds accTexts rest) = []
  | [], _, _, _ => rfl
  | (tid, text) :: rest, i, a, t => by
    simp only [runLoop, if_pos hmode, hok text]
    simp [errorsOf, errorsOf_single cfg be f hmode hok N rest (i + 1) a t]

theorem batchIdsOf_single {H E : Type} (cfg : Config) (be : Backend H E) (f : String → H)
    (hmode : cfg.batch_size ≤ 1 ∧ cfg.threads ≤ 1)
    (hok : ∀ t, be.search t cfg.hits cfg.rho = Except.ok (f t)) (N : Nat) :
    ∀ (rest : List (TopicId × String)) (i : Nat) (accIds accTexts : List String),
      batchIdsOf (runLoop cfg be N i accIds accTexts rest) = []
  | [], _, _, _ => rfl
  | (tid, text) :: rest, i, a, t => by
    simp only [runLoop, if_pos hmode, hok text]
    simp [batchIdsOf, batchIdsOf_single cfg be f hmode hok N rest (i + 1) a t]

theorem runLoop_single_fail {H E : Type} (cfg : Config) (be : Backend H E) (f : String → H)
    (e : E) (tf : TopicId × String) (post : List (TopicId × String))
    (hmode : cfg.batch_size ≤ 1 ∧ cfg.threads ≤ 1)
    (hfail : be.search tf.2 cfg.hits cfg.rho = Except.error e) (N : Nat) :
    ∀ (pre : List (TopicId × String)) (i : Nat) (accIds accTexts : List String),
      (∀ p ∈ pre, be.search p.2 cfg.hits cfg.rho = Except.ok (f p.2)) →
      writesOf (runLoop cfg be N i accIds accTexts (pre ++ tf :: post)) =
          (pre.map fun p => (p.1, f p.2)) ∧
        errorsOf (runLoop cfg be N i accIds accTexts (pre ++ tf :: post)) =
          [RunError.backend e] ∧
        (entersOf (runLoop cfg be N i accIds accTexts (pre ++ tf :: post))).length =
          pre.length + 1 ∧
        searchCallsOf (runLoop cfg be N i accIds accTexts (pre ++ tf :: post)) =
          (pre.map fun p => p.2) ++ [tf.2]
  | [], i, a, t, _ => by
    obtain ⟨tid, text⟩ := tf
    simp only [List.nil_append, runLoop, if_pos hmode]
    rw [hfail]
    simp [writesOf, errorsOf, entersOf, searchCallsOf]
  | (tid, text) :: pre, i, a, t, hok => by
    have hihead := hok (tid, text) (List.mem_cons_self _ _)
    have ihyp := runLoop_single_fail cfg be f e tf post hmode hfail N pre (i + 1) a t
      (fun p hp => hok p (List.mem_cons_of_mem _ hp))
    simp only [List.cons_append, runLoop, if_pos hmode, hihead]
    simp [writesOf, errorsOf, entersOf, searchCallsOf, ihyp.1, ihyp.2.1, ihyp.2.2.1, ihyp.2.2.2]

/-- In batch mode `searcher.search` is never invoked. -/
theorem runLoop_batch_no_searchCalls {H E : Type} (cfg : Config) (be : Backend H E) (N : Nat)
    (hmode : ¬(cfg.batch_size ≤ 1 ∧ cfg.threads ≤ 1)) :
    ∀ (rest : List (TopicId × String)) (i : Nat) (accIds accTexts : List String),
      searchCallsOf (runLoop cfg be N i accIds accTexts rest) = []
  | [], _, _, _ => rfl
  | (tid, text) :: rest, i, a, t => by
    simp only [runLoop, if_neg hmode]
    by_cases hf : ((i : Int) + 1) % cfg.batch_size = 0 ∨ (i : Int) = (N : Int) - 1
    · rw [if_pos hf]
      cases hbs : be.batch_search (t ++ [text]) (a ++ [pyStr tid]) cfg.hits cfg.rho cfg.threads with
      | error e => simp [searchCallsOf]
      | ok m =>
        cases hr : reproject (E := E) m (a ++ [pyStr tid]) with
        | error e' => simp [hr, searchCallsOf]
        | ok rs =>
          simp [hr, searchCallsOf, searchCallsOf_append, searchCallsOf_map_write,
            runLoop_batch_no_searchCalls cfg be N hmode rest (i + 1) [] []]
    · rw [if_neg hf]
      simp [searchCallsOf, runLoop_batch_no_searchCalls cfg be N hmode rest (i + 1) (a ++ [pyStr tid]) (t ++ [text])]

/-! ### Batch-mode master lemmas -/

/-- In batch mode, with a contract-satisfying backend, the loop aborts
never and writes the stringified topic ids in arrival order: from a
state whose accumulator holds `accIds` the remaining writes are `accIds`
followed by the stringified ids of the remaining topics. -/
theorem runLoop_batch_writes {H E : Type} (cfg : Config) (be : Backend H E) (N : Nat)
    (hmode : ¬(cfg.batch_size ≤ 1 ∧ cfg.threads ≤ 1)) (hbe : BackendBatchOk be) :
    ∀ (rest : List (TopicId × String)) (i : Nat) (accIds accTexts : List String),
      i + rest.length = N → accTexts.length = accIds.length → (rest = [] → accIds = []) →
      errorsOf (runLoop cfg be N i accIds accTexts rest) = [] ∧
        (writesOf (runLoop cfg be N i accIds accTexts rest)).map (fun p => pyStr p.1) =
          accIds ++ rest.map fun p => pyStr p.1
  | [], i, accIds, accTexts, hN, hlen, hq => by
    simp [runLoop, errorsOf, writesOf, hq rfl]
  | (tid, text) :: rest, i, accIds, accTexts, hN, hlen, hq => by
    simp only [runLoop, if_neg hmode]
    by_cases hf : ((i : Int) + 1) % cfg.batch_size = 0 ∨ (i : Int) = (N : Int) - 1
    · rw [if_pos hf]
      obtain ⟨m, hm, hcov⟩ := hbe (accTexts ++ [text]) (accIds ++ [pyStr tid])
        cfg.hits cfg.rho cfg.threads (by simp [hlen])
      obtain ⟨rs, hrs, hfst⟩ := reproject_total (E := E) m _ hcov
      obtain ⟨ih1, ih2⟩ := runLoop_batch_writes cfg be N hmode hbe rest (i + 1) [] []
        (by simp at hN; omega) rfl (fun _ => rfl)
      simp only [hm, hrs]
      refine ⟨?_, ?_⟩
      · simp [errorsOf, errorsOf_append, errorsOf_map_write, ih1]
      · have h' : List.map ((fun p : TopicId × H => pyStr p.1) ∘
            fun p : String × H => (TopicId.strId p.1, p.2)) rs = accIds ++ [pyStr tid] := hfst
        simp only [writesOf, writesOf_append, writesOf_map_write, List.map_append,
          List.map_map, List.map_cons]
        rw [h', ih2]
        simp
    · rw [if_neg hf]
      have hrne : rest ≠ [] := by
        intro h
        subst h
        simp at hN
        exact hf (Or.inr (by omega))
      obtain ⟨ih1, ih2⟩ := runLoop_batch_writes cfg be N hmode hbe rest (i + 1)
        (accIds ++ [pyStr tid]) (accTexts ++ [text]) (by simp at hN ⊢; omega)
        (by simp [hlen]) (fun h => absurd h hrne)
      refine ⟨?_, ?_⟩
      · simp [errorsOf, ih1]
      · simp [writesOf, ih2]

/-! ### Chunking lemmas -/

theorem chunksAux_flatten {α : Type} (b : Nat) :
    ∀ (l : List α) (acc : List α), l ≠ [] → (chunksAux b acc l).flatten = acc ++ l
  | [x], acc, _ => by simp [chunksAux]
  | x :: y :: rest, acc, _ => by
    rw [chunksAux]
    by_cases h : acc.length + 1 = b
    · rw [if_pos h, List.flatten_cons, chunksAux_flatten b (y :: rest) [] (by simp)]
      simp
    · rw [if_neg h, chunksAux_flatten b (y :: rest) (acc ++ [x]) (by simp)]
      simp

theorem chunksAux_sizes {α : Type} (b : Nat) (hb : 0 < b) :
    ∀ (l : List α) (acc : List α), acc.length < b → l ≠ [] →
      (chunksAux b acc l).map List.length =
        List.replicate ((acc.length + l.length) / b) b ++
          (if (acc.length + l.length) % b = 0 then [] else [(acc.length + l.length) % b])
  | [x], acc, hlt, _ => by
    rw [chunksAux]
    simp only [List.map_cons, List.map_nil, List.length_append, List.length_singleton,
      List.length_cons, List.length_nil]
    by_cases h : acc.length + 1 = b
    · rw [h, Nat.div_self hb, Nat.mod_self, if_pos rfl]
      simp
    · rw [Nat.div_eq_of_lt (by omega), Nat.mod_eq_of_lt (by omega), if_neg (by omega)]
      simp
  | x :: y :: rest, acc, hlt, _ => by
    rw [chunksAux]
    by_cases h : acc.length + 1 = b
    · rw [if_pos h, List.map_cons,
        chunksAux_sizes b hb (y :: rest) [] (by simpa using hb) (by simp)]
      simp only [List.length_append, List.length_singleton, List.length_cons,
        List.length_nil, Nat.zero_add]
      have e1 : acc.length + (rest.length + 1 + 1) = rest.length + 1 + b := by omega
      rw [e1, Nat.add_div_right _ hb, Nat.add_mod_right, List.replicate_succ, h]
      exact (List.cons_append b _ _).symm
    · have hlen2 : (acc ++ [x]).length < b := by
        simp only [List.length_append, List.length_singleton]
        omega
      rw [if_neg h, chunksAux_sizes b hb (y :: rest) (acc ++ [x]) hlen2 (by simp)]
      simp only [List.length_append, List.length_singleton, List.length_cons,
        List.length_nil, Nat.zero_add]
      have e1 : acc.length + 1 + (rest.length + 1) = acc.length + (rest.length + 1 + 1) := by
        omega
      rw [e1]

/-- In batch mode, with `batch_size ≥ 1` and a contract-satisfying
backend, the id lists handed to `batch_search` are exactly the groups
formed by closing the accumulator at size `batch_size` or at the end of
the stream. -/
theorem runLoop_batch_ids {H E : Type} (cfg : Config) (be : Backend H E) (N : Nat)
    (hmode : ¬(cfg.batch_size ≤ 1 ∧ cfg.threads ≤ 1)) (hb : 1 ≤ cfg.batch_size)
    (hbe : BackendBatchOk be) :
    ∀ (rest : List (TopicId × String)) (i : Nat) (accIds accTexts : List String),
      i + rest.length = N → accTexts.length = accIds.length →
      accIds.length = i % cfg.batch_size.toNat →
      batchIdsOf (runLoop cfg be N i accIds accTexts rest) =
        chunksAux cfg.batch_size.toNat accIds (rest.map fun p => pyStr p.1)
  | [], i, accIds, accTexts, hN, hlen, hmod => by
    simp [runLoop, batchIdsOf, chunksAux]
  | [(tid, text)], i, accIds, accTexts, hN, hlen, hmod => by
    have hf : ((i : Int) + 1) % cfg.batch_size = 0 ∨ (i : Int) = (N : Int) - 1 := by
      right
      simp at hN
      omega
    simp only [runLoop, if_neg hmode, if_pos hf]
    obtain ⟨m, hm, hcov⟩ := hbe (accTexts ++ [text]) (accIds ++ [pyStr tid])
      cfg.hits cfg.rho cfg.threads (by simp [hlen])
    obtain ⟨rs, hrs, _⟩ := reproject_total (E := E) m _ hcov
    simp only [hm, hrs]
    simp [batchIdsOf, batchIdsOf_append, batchIdsOf_map_write, runLoop, chunksAux]
  | (tid, text) :: q :: rest, i, accIds, accTexts, hN, hlen, hmod => by
    have hb' : 0 < cfg.batch_size.toNat := by omega
    have hiN : i + 1 ≠ N := by simp at hN; omega
    have hcond : (((i : Int) + 1) % cfg.batch_size = 0 ∨ (i : Int) = (N : Int) - 1) ↔
        (i + 1) % cfg.batch_size.toNat = 0 := by
      rw [flushCond_iff i N cfg.batch_size hb]
      constructor
      · rintro (h | h)
        · exact h
        · exact absurd h hiN
      · exact Or.inl
    rw [runLoop_cons_eq, if_neg hmode]
    by_cases hf : (i + 1) % cfg.batch_size.toNat = 0
    · rw [if_pos (hcond.mpr hf)]
      obtain ⟨m, hm, hcov⟩ := hbe (accTexts ++ [text]) (accIds ++ [pyStr tid])
        cfg.hits cfg.rho cfg.threads (by simp [hlen])
      obtain ⟨rs, hrs, _⟩ := reproject_total (E := E) m _ hcov
      simp only [hm, hrs]
      have hsz : accIds.length + 1 = cfg.batch_size.toNat := by
        rw [hmod]
        exact (mod_succ_eq_zero_iff i cfg.batch_size.toNat hb').mp hf
      have ih := runLoop_batch_ids cfg be N hmode hb hbe (q :: rest) (i + 1) [] []
        (by simp at hN ⊢; omega) rfl (by simp [hf])
      simp only [batchIdsOf_cons_enter, batchIdsOf_cons_batchCall, batchIdsOf_append,
        batchIdsOf_map_write, List.nil_append, ih, List.map_cons, chunksAux_cons_cons]
      rw [if_pos hsz]
    · rw [if_neg (fun h => hf (hcond.mp h))]
      have hmodne : i % cfg.batch_size.toNat + 1 ≠ cfg.batch_size.toNat := fun h =>
        hf ((mod_succ_eq_zero_iff i cfg.batch_size.toNat hb').mpr h)
      have hne : accIds.length + 1 ≠ cfg.batch_size.toNat := by
        rw [hmod]
        exact hmodne
      have hmod' : (accIds ++ [pyStr tid]).length = (i + 1) % cfg.batch_size.toNat := by
        rw [mod_succ_of_ne i cfg.batch_size.toNat hb' hmodne]
        simp [hmod]
      have ih := runLoop_batch_ids cfg be N hmode hb hbe (q :: rest) (i + 1)
        (accIds ++ [pyStr tid]) (accTexts ++ [text]) (by simp at hN ⊢; omega)
        (by simp [hlen]) hmod'
      simp only [batchIdsOf_cons_enter, ih, List.map_cons, chunksAux_cons_cons]
      rw [if_neg hne]

/-- The integer flush test of the source, over a natural batch size. -/
theorem intMod_succ_iff (i b : Nat) : (((i : Int) + 1) % (b : Int) = 0) ↔ (i + 1) % b = 0 := by
  have h1 : ((i : Int) + 1) = (((i + 1 : Nat) : Nat) : Int) := by push_cast; ring
  rw [h1, intMod_natCast_eq_zero (i + 1) (b : Int) (Int.natCast_nonneg b), Int.toNat_natCast]

/-- Loop-state invariant of batch mode: at the start of each iteration
at index `j`, the accumulators hold exactly the topics consumed since
the last flush, i.e. the window of `topics` from `j - j % b` (length
`j % b`), ids stringified in arrival order. -/
theorem runLoop_batch_enters {H E : Type} (cfg : Config) (be : Backend H E)
    (topics : List (TopicId × String)) (b : Nat)
    (hmode : ¬(cfg.batch_size ≤ 1 ∧ cfg.threads ≤ 1)) (hb : 1 ≤ b)
    (hbval : (b : Int) = cfg.batch_size) :
    ∀ (rest : List (TopicId × String)) (i : Nat) (accIds accTexts : List String),
      rest = topics.drop i → i + rest.length = topics.length →
      accIds = ((topics.drop (i - i % b)).take (i % b)).map (fun p => pyStr p.1) →
      accTexts = ((topics.drop (i - i % b)).take (i % b)).map Prod.snd →
      ∀ s ∈ entersOf (runLoop cfg be topics.length i accIds accTexts rest),
        s.2.1 = ((topics.drop (s.1 - s.1 % b)).take (s.1 % b)).map (fun p => pyStr p.1) ∧
          s.2.2 = ((topics.drop (s.1 - s.1 % b)).take (s.1 % b)).map Prod.snd ∧
          s.1 < topics.length
  | [], i, accIds, accTexts, hrest, hN, hacc, htx => by
    intro s hs
    simp [runLoop, entersOf] at hs
  | (tid, text) :: rest, i, accIds, accTexts, hrest, hN, hacc, htx => by
    have hiN : i < topics.length := by
      simp at hN
      omega
    have htopi : topics[i]? = some (tid, text) := by
      have h0 : (topics.drop i)[0]? = topics[i + 0]? := List.getElem?_drop topics i 0
      rw [← hrest] at h0
      simpa using h0.symm
    have hrest' : rest = topics.drop (i + 1) := by
      have h1 : (topics.drop i).drop 1 = topics.drop (i + 1) := List.drop_drop 1 i topics
      rw [← hrest] at h1
      simpa using h1
    have hmodle : i % b ≤ i := Nat.mod_le i b
    have hb0 : 0 < b := hb
    rw [runLoop_cons_eq, if_neg hmode]
    by_cases hf : ((i : Int) + 1) % cfg.batch_size = 0 ∨ (i : Int) = (topics.length : Int) - 1
    · rw [if_pos hf]
      intro s hs
      rw [entersOf_cons_enter] at hs
      rcases List.mem_cons.mp hs with hhead | htail
      · subst hhead
        exact ⟨hacc, htx, hiN⟩
      · cases hbs : be.batch_search (accTexts ++ [text]) (accIds ++ [pyStr tid])
          cfg.hits cfg.rho cfg.threads with
        | error e =>
          simp [hbs, entersOf] at htail
        | ok m =>
          simp only [hbs] at htail
          cases hrp : reproject (E := E) m (accIds ++ [pyStr tid]) with
          | error e =>
            simp [hrp, entersOf] at htail
          | ok rs =>
            simp only [hrp] at htail
            rw [entersOf_cons_batchCall, entersOf_append, entersOf_map_write,
              List.nil_append] at htail
            by_cases hrest0 : rest = []
            · subst hrest0
              simp [runLoop, entersOf] at htail
            · have hi1N : i + 1 ≠ topics.length := by
                simp at hN
                have : rest.length ≠ 0 := fun h => hrest0 (List.length_eq_zero.mp h)
                omega
              have hfnat : (i + 1) % b = 0 := by
                rcases hf with h | h
                · rw [← hbval] at h
                  exact (intMod_succ_iff i b).mp h
                · exact absurd (by omega : i + 1 = topics.length) hi1N
              have hacc' : ([] : List String) =
                  ((topics.drop ((i + 1) - (i + 1) % b)).take ((i + 1) % b)).map
                    (fun p => pyStr p.1) := by
                rw [hfnat]
                simp
              have htx' : ([] : List String) =
                  ((topics.drop ((i + 1) - (i + 1) % b)).take ((i + 1) % b)).map Prod.snd := by
                rw [hfnat]
                simp
              exact runLoop_batch_enters cfg be topics b hmode hb hbval rest (i + 1) [] []
                hrest' (by simp at hN ⊢; omega) hacc' htx' s htail
    · rw [if_neg hf]
      intro s hs
      rw [entersOf_cons_enter] at hs
      rcases List.mem_cons.mp hs with hhead | htail
      · subst hhead
        exact ⟨hacc, htx, hiN⟩
      · have hfnat : ¬((i + 1) % b = 0) := by
          intro h
          exact hf (Or.inl (by rw [← hbval]; exact (intMod_succ_iff i b).mpr h))
        have hmodsucc : (i + 1) % b = i % b + 1 :=
          mod_succ_of_ne i b hb0 (fun h => hfnat ((mod_succ_eq_zero_iff i b hb0).mpr h))
        have hw : (topics.drop ((i + 1) - (i + 1) % b)).take ((i + 1) % b) =
            (topics.drop (i - i % b)).take (i % b) ++ [(tid, text)] := by
          rw [hmodsucc, show i + 1 - (i % b + 1) = i - i % b from by omega, List.take_succ,
            List.getElem?_drop, show i - i % b + i % b = i from by omega, htopi]
          rfl
        have hacc' : accIds ++ [pyStr tid] =
            ((topics.drop ((i + 1) - (i + 1) % b)).take ((i + 1) % b)).map
              (fun p => pyStr p.1) := by
          rw [hw, List.map_append, ← hacc]
          rfl
        have htx' : accTexts ++ [text] =
            ((topics.drop ((i + 1) - (i + 1) % b)).take ((i + 1) % b)).map Prod.snd := by
          rw [hw, List.map_append, ← htx]
          rfl
        exact runLoop_batch_enters cfg be topics b hmode hb hbval rest (i + 1)
          (accIds ++ [pyStr tid]) (accTexts ++ [text]) hrest' (by simp at hN ⊢; omega)
          hacc' htx' s htail

/-- Two backends whose `batch_search` results hold the same associations
(up to entry order, with unique keys) drive the batch-mode loop to
identical traces: the loop only ever looks the mapping up by key. -/
theorem runLoop_batch_congr {H E : Type} (cfg : Config) (be₁ be₂ : Backend H E) (N : Nat)
    (hmode : ¬(cfg.batch_size ≤ 1 ∧ cfg.threads ≤ 1))
    (hrel : ∀ texts ids k r th, texts.length = ids.length → ids.Nodup →
      ∃ m₁ m₂, be₁.batch_search texts ids k r th = Except.ok m₁ ∧
        be₂.batch_search texts ids k r th = Except.ok m₂ ∧ m₁.Perm m₂ ∧
        (m₁.map Prod.fst).Nodup) :
    ∀ (rest : List (TopicId × String)) (i : Nat) (accIds accTexts : List String),
      accTexts.length = accIds.length →
      (accIds ++ rest.map fun p => pyStr p.1).Nodup →
      runLoop cfg be₁ N i accIds accTexts rest = runLoop cfg be₂ N i accIds accTexts rest
  | [], _, _, _, _, _ => rfl
  | (tid, text) :: rest, i, accIds, accTexts, hlen, hnd => by
    have hnd₁ : (accIds ++ [pyStr tid]).Nodup := by
      refine hnd.sublist ?_
      exact List.Sublist.append_left (by simp) accIds
    have hndrest : (rest.map fun p => pyStr p.1).Nodup := by
      have hnd' : (accIds ++ (pyStr tid :: rest.map fun p => pyStr p.1)).Nodup := by
        simpa using hnd
      refine hnd'.sublist ?_
      refine List.Sublist.trans (List.sublist_cons_self (pyStr tid) _) ?_
      exact List.sublist_append_right accIds _
    rw [runLoop_cons_eq, runLoop_cons_eq, if_neg hmode, if_neg hmode]
    by_cases hf : ((i : Int) + 1) % cfg.batch_size = 0 ∨ (i : Int) = (N : Int) - 1
    · rw [if_pos hf, if_pos hf]
      obtain ⟨m₁, m₂, hm₁, hm₂, hperm, hndm⟩ := hrel (accTexts ++ [text])
        (accIds ++ [pyStr tid]) cfg.hits cfg.rho cfg.threads (by simp [hlen]) hnd₁
      have hlu : ∀ id, List.lookup id m₁ = List.lookup id m₂ := fun k =>
        lookup_eq_of_perm_nodup hperm k hndm
      have hrec : runLoop cfg be₁ N (i + 1) [] [] rest =
          runLoop cfg be₂ N (i + 1) [] [] rest :=
        runLoop_batch_congr cfg be₁ be₂ N hmode hrel rest (i + 1) [] [] rfl
          (by simpa using hndrest)
      simp only [hm₁, hm₂, reproject_congr m₁ m₂ hlu (accIds ++ [pyStr tid]), hrec]
    · rw [if_neg hf, if_neg hf,
        runLoop_batch_congr cfg be₁ be₂ N hmode hrel rest (i + 1)
          (accIds ++ [pyStr tid]) (accTexts ++ [text]) (by simp [hlen])
          (by simpa using hnd)]

/-- Batch-mode write contents under the pure backend: every topic is
written as `(str(topic_id), f text)`, in arrival order, provided the
stringified ids are pairwise distinct. -/
theorem runLoop_batch_pure {H E : Type} (cfg : Config) (f : String → Int → Int → H) (N : Nat)
    (hmode : ¬(cfg.batch_size ≤ 1 ∧ cfg.threads ≤ 1)) :
    ∀ (rest : List (TopicId × String)) (i : Nat) (accIds accTexts : List String),
      i + rest.length = N → accTexts.length = accIds.length → (rest = [] → accIds = []) →
      (accIds ++ rest.map fun p => pyStr p.1).Nodup →
      writesOf (runLoop cfg (pureBackend E f) N i accIds accTexts rest) =
        (accIds.zip accTexts ++ rest.map fun p => (pyStr p.1, p.2)).map
          fun q => (TopicId.strId q.1, f q.2 cfg.hits cfg.rho)
  | [], i, accIds, accTexts, hN, hlen, hq, hnd => by
    simp [runLoop, writesOf, hq rfl]
  | (tid, text) :: rest, i, accIds, accTexts, hN, hlen, hq, hnd => by
    have hnd₁ : (accIds ++ [pyStr tid]).Nodup := by
      refine hnd.sublist ?_
      exact List.Sublist.append_left (by simp) accIds
    have hndrest : (rest.map fun p => pyStr p.1).Nodup := by
      have hnd' : (accIds ++ (pyStr tid :: rest.map fun p => pyStr p.1)).Nodup := by
        simpa using hnd
      refine hnd'.sublist ?_
      refine List.Sublist.trans (List.sublist_cons_self (pyStr tid) _) ?_
      exact List.sublist_append_right accIds _
    rw [runLoop_cons_eq, if_neg hmode]
    by_cases hf : ((i : Int) + 1) % cfg.batch_size = 0 ∨ (i : Int) = (N : Int) - 1
    · rw [if_pos hf]
      have hpb : (pureBackend E f).batch_search (accTexts ++ [text]) (accIds ++ [pyStr tid])
          cfg.hits cfg.rho cfg.threads =
          Except.ok ((accIds ++ [pyStr tid]).zip
            ((accTexts ++ [text]).map fun t => f t cfg.hits cfg.rho)) := rfl
      have hzl : (accIds ++ [pyStr tid]).length =
          ((accTexts ++ [text]).map fun t => f t cfg.hits cfg.rho).length := by
        simp [hlen]
      have hrp := reproject_zip_self (E := E) (accIds ++ [pyStr tid])
        ((accTexts ++ [text]).map fun t => f t cfg.hits cfg.rho) hnd₁ hzl
      have ih := runLoop_batch_pure (E := E) cfg f N hmode rest (i + 1) [] []
        (by simp at hN ⊢; omega) rfl (fun _ => rfl) (by simpa using hndrest)
      simp only [hpb, hrp, writesOf_cons_enter, writesOf_cons_batchCall, writesOf_append,
        writesOf_map_write, ih]
      rw [List.zip_map_right, List.zip_append hlen.symm]
      simp [Prod.map]
    · rw [if_neg hf]
      have hrne : rest ≠ [] := by
        intro h
        subst h
        simp at hN
        exact hf (Or.inr (by omega))
      have ih := runLoop_batch_pure (E := E) cfg f N hmode rest (i + 1)
        (accIds ++ [pyStr tid]) (accTexts ++ [text]) (by simp at hN ⊢; omega)
        (by simp [hlen]) (fun h => absurd h hrne) (by simpa using hnd)
      rw [writesOf_cons_enter, ih, List.zip_append hlen.symm]
      simp

theorem getLast?_cons_of_ne_nil {A : Type} (a : A) (l : List A) (h : l ≠ []) :
    (a :: l).getLast? = l.getLast? := by
  cases l with
  | nil => exact absurd rfl h
  | cons b l' => exact List.getLast?_cons_cons

/-- Failures are never caught: every run trace holds at most one error,
and a `fail` event is always the final event of the trace — after a
backend exception (or `KeyError`) no topic is consumed, no backend call
is made, and nothing further is written. -/
theorem runLoop_error_last {H E : Type} (cfg : Config) (be : Backend H E) (N : Nat) :
    ∀ (rest : List (TopicId × String)) (i : Nat) (accIds accTexts : List String),
      (errorsOf (runLoop cfg be N i accIds accTexts rest)).length ≤ 1 ∧
      ∀ e, Ev.fail e ∈ runLoop cfg be N i accIds accTexts rest →
        (runLoop cfg be N i accIds accTexts rest).getLast? = some (Ev.fail e)
  | [], i, a, t => by
    constructor
    · simp [runLoop, errorsOf]
    · intro e he
      simp [runLoop] at he
  | (tid, text) :: rest, i, a, t => by
    rw [runLoop_cons_eq]
    by_cases hmode : cfg.batch_size ≤ 1 ∧ cfg.threads ≤ 1
    · rw [if_pos hmode]
      cases hse : be.search text cfg.hits cfg.rho with
      | error e' =>
        simp only [hse]
        constructor
        · simp [errorsOf_cons_enter, errorsOf_cons_searchCall, errorsOf_cons_fail, errorsOf]
        · intro e he
          simp at he
          subst he
          rfl
      | ok hits =>
        simp only [hse]
        obtain ⟨ih1, ih2⟩ := runLoop_error_last cfg be N rest (i + 1) a t
        constructor
        · simpa [errorsOf_cons_enter, errorsOf_cons_searchCall, errorsOf_cons_write]
            using ih1
        · intro e he
          have heR : Ev.fail e ∈ runLoop cfg be N (i + 1) a t rest := by simpa using he
          have hne : runLoop cfg be N (i + 1) a t rest ≠ [] := by
            intro h0
            rw [h0] at heR
            simp at heR
          rw [getLast?_cons_of_ne_nil _ _ (by simp), getLast?_cons_of_ne_nil _ _ (by simp),
            getLast?_cons_of_ne_nil _ _ hne]
          exact ih2 e heR
    · rw [if_neg hmode]
      by_cases hf : ((i : Int) + 1) % cfg.batch_size = 0 ∨ (i : Int) = (N : Int) - 1
      · rw [if_pos hf]
        cases hbs : be.batch_search (t ++ [text]) (a ++ [pyStr tid])
            cfg.hits cfg.rho cfg.threads with
        | error e' =>
          simp only [hbs]
          constructor
          · simp [errorsOf_cons_enter, errorsOf_cons_batchCall, errorsOf_cons_fail, errorsOf]
          · intro e he
            simp at he
            subst he
            rfl
        | ok m =>
          simp only [hbs]
          cases hrp : reproject (E := E) m (a ++ [pyStr tid]) with
          | error e' =>
            simp only [hrp]
            constructor
            · simp [errorsOf_cons_enter, errorsOf_cons_batchCall, errorsOf_cons_fail, errorsOf]
            · intro e he
              simp at he
              subst he
              rfl
          | ok rs =>
            simp only [hrp]
            obtain ⟨ih1, ih2⟩ := runLoop_error_last cfg be N rest (i + 1) [] []
            constructor
            · simpa [errorsOf_cons_enter, errorsOf_cons_batchCall, errorsOf_append,
                errorsOf_map_write] using ih1
            · intro e he
              have heR : Ev.fail e ∈ runLoop cfg be N (i + 1) [] [] rest := by
                simpa using he
              have hne : runLoop cfg be N (i + 1) [] [] rest ≠ [] := by
                intro h0
                rw [h0] at heR
                simp at heR
              rw [getLast?_cons_of_ne_nil _ _ (by simp),
                getLast?_cons_of_ne_nil _ _ (fun h0 => hne (List.append_eq_nil.mp h0).2),
                List.getLast?_append_of_ne_nil _ hne]
              exact ih2 e heR
      · rw [if_neg hf]
        obtain ⟨ih1, ih2⟩ := runLoop_error_last cfg be N rest (i + 1)
          (a ++ [pyStr tid]) (t ++ [text])
        constructor
        · simpa [errorsOf_cons_enter] using ih1
        · intro e he
          have heR : Ev.fail e ∈ runLoop cfg be N (i + 1) (a ++ [pyStr tid])
              (t ++ [text]) rest := by simpa using he
          have hne : runLoop cfg be N (i + 1) (a ++ [pyStr tid]) (t ++ [text]) rest ≠ [] := by
            intro h0
            rw [h0] at heR
            simp at heR
          rw [getLast?_cons_of_ne_nil _ _ hne]
          exact ih2 e heR

/-- In batch mode, a `batch_search` that raises aborts the whole run at
its first flush: no pair is ever dispatched, the error is the single
abort of the run, and exactly one batch call was attempted. -/
theorem runLoop_batchfail {H E : Type} (cfg : Config) (be : Backend H E) (N : Nat) (e : E)
    (hmode : ¬(cfg.batch_size ≤ 1 ∧ cfg.threads ≤ 1))
    (hfe : ∀ texts ids k r th, be.batch_search texts ids k r th = Except.error e) :
    ∀ (rest : List (TopicId × String)) (i : Nat) (accIds accTexts : List String),
      i + rest.length = N → rest ≠ [] →
      writesOf (runLoop cfg be N i accIds accTexts rest) = [] ∧
      errorsOf (runLoop cfg be N i accIds accTexts rest) = [RunError.backend e] ∧
      (batchIdsOf (runLoop cfg be N i accIds accTexts rest)).length = 1
  | [], _, _, _, _, hne => absurd rfl hne
  | [(tid, text)], i, a, t, hN, _ => by
    have hf : ((i : Int) + 1) % cfg.batch_size = 0 ∨ (i : Int) = (N : Int) - 1 := by
      right
      simp at hN
      omega
    rw [runLoop_cons_eq, if_neg hmode, if_pos hf]
    simp only [hfe]
    exact ⟨rfl, rfl, rfl⟩
  | (tid, text) :: q :: rest, i, a, t, hN, _ => by
    rw [runLoop_cons_eq, if_neg hmode]
    by_cases hf : ((i : Int) + 1) % cfg.batch_size = 0 ∨ (i : Int) = (N : Int) - 1
    · rw [if_pos hf]
      simp only [hfe]
      exact ⟨rfl, rfl, rfl⟩
    · rw [if_neg hf]
      obtain ⟨ih1, ih2, ih3⟩ := runLoop_batchfail cfg be N e hmode hfe (q :: rest) (i + 1)
        (a ++ [pyStr tid]) (t ++ [text]) (by simp at hN ⊢; omega) (by simp)
      exact ⟨by simpa [writesOf_cons_enter] using ih1,
        by simpa [errorsOf_cons_enter] using ih2,
        by simpa [batchIdsOf_cons_enter] using ih3⟩

/-! ### Concrete fixtures for evaluating the theorems -/

/-- A pure hit function: the number of hits is the query length. -/
def hitFn : String → Int → Int → Nat := fun t _ _ => t.length

/-- A deterministic, contract-satisfying backend. -/
def okBackend : Backend Nat Unit := pureBackend Unit hitFn

/-- Five topics with string ids. -/
def topics5 : List (TopicId × String) :=
  [(TopicId.strId "q1", "ta"), (TopicId.strId "q2", "tbb"), (TopicId.strId "q3", "tc"),
   (TopicId.strId "q4", "td"), (TopicId.strId "q5", "te")]

/-- A backend that raises on the query text `tbb` in single mode. -/
def failBackend : Backend Nat Unit where
  search := fun t _ _ => if t = "tbb" then Except.error () else Except.ok t.length
  batch_search := fun texts ids _ _ _ => Except.ok (ids.zip (texts.map fun t => t.length))

/-- A backend returning its mapping in submission order. -/
def permBackendA : Backend Nat Unit where
  search := fun t _ _ => Except.ok t.length
  batch_search := fun texts ids _ _ _ => Except.ok (ids.zip (texts.map fun t => t.length))

/-- The same backend, with the mapping entries in reversed order. -/
def permBackendB : Backend Nat Unit where
  search := fun t _ _ => Except.ok t.length
  batch_search := fun texts ids _ _ _ =>
    Except.ok ((ids.zip (texts.map fun t => t.length)).reverse)

/-- A backend whose `batch_search` always raises. -/
def batchFailBackend : Backend Nat Unit where
  search := fun t _ _ => Except.ok t.length
  batch_search := fun _ _ _ _ _ => Except.error ()

theorem permBackendA_batchOk : BackendBatchOk permBackendA := by
  intro texts ids k r th hl
  refine ⟨ids.zip (texts.map String.length), rfl, fun id hm => ?_⟩
  exact lookup_zip_isSome id ids _ hm (by simp [hl])

theorem permBackends_rel : ∀ (texts ids : List String) (k r th : Int),
    texts.length = ids.length → ids.Nodup →
    ∃ m₁ m₂, permBackendA.batch_search texts ids k r th = Except.ok m₁ ∧
      permBackendB.batch_search texts ids k r th = Except.ok m₂ ∧ m₁.Perm m₂ ∧
      (m₁.map Prod.fst).Nodup := by
  intro texts ids k r th hl hnd
  refine ⟨ids.zip (texts.map String.length), (ids.zip (texts.map String.length)).reverse,
    rfl, rfl, (List.reverse_perm _).symm, ?_⟩
  rw [List.map_fst_zip ids _ (by simp [hl])]
  exact hnd

/-! ### The claims -/

/-- C1: for every finite topic source and every configuration with
`batch_size ≥ 1` and `threads ≥ 1`, with a backend meeting its contract,
the run loop never aborts, dispatches exactly one `(topic_id, hits)`
pair per topic (total dispatches = N), and the dispatch order matches
the arrival order of the topics (ids compared through `str(...)`, the
form under which batch mode labels its writes). -/
theorem run_dispatches_each_topic_once_in_order {H E : Type} (cfg : Config)
    (be : Backend H E) (topics : List (TopicId × String))
    (hb : 1 ≤ cfg.batch_size) (ht : 1 ≤ cfg.threads) (hbe : BackendOk be) :
    errorsOf (run cfg be topics) = [] ∧
    (writesOf (run cfg be topics)).length = topics.length ∧
    (writesOf (run cfg be topics)).map (fun p => pyStr p.1) =
      topics.map fun p => pyStr p.1 := by
  unfold run
  by_cases hmode : cfg.batch_size ≤ 1 ∧ cfg.threads ≤ 1
  · have hex : ∃ f : String → H, ∀ t, be.search t cfg.hits cfg.rho = Except.ok (f t) :=
      ⟨fun t => Classical.choose (hbe.1 t cfg.hits cfg.rho),
       fun t => Classical.choose_spec (hbe.1 t cfg.hits cfg.rho)⟩
    obtain ⟨f, hok⟩ := hex
    refine ⟨errorsOf_single cfg be f hmode hok _ topics 0 [] [], ?_, ?_⟩
    · rw [writesOf_single cfg be f hmode hok _ topics 0 [] []]
      simp
    · rw [writesOf_single cfg be f hmode hok _ topics 0 [] []]
      simp
  · obtain ⟨h1, h2⟩ := runLoop_batch_writes cfg be topics.length hmode hbe.2 topics 0 [] []
      (by simp) rfl (fun _ => rfl)
    refine ⟨h1, ?_, by simpa using h2⟩
    have hlen := congrArg List.length h2
    simpa using hlen

theorem run_dispatches_each_topic_once_in_order_witness :
    errorsOf (run ⟨2, 3, 4, 7⟩ okBackend topics5) = [] ∧
    (writesOf (run ⟨2, 3, 4, 7⟩ okBackend topics5)).length = topics5.length ∧
    (writesOf (run ⟨2, 3, 4, 7⟩ okBackend topics5)).map (fun p => pyStr p.1) =
      topics5.map fun p => pyStr p.1 :=
  run_dispatches_each_topic_once_in_order ⟨2, 3, 4, 7⟩ okBackend topics5 (by decide)
    (by decide) (pureBackend_ok Unit hitFn)

/-- C2: in batch mode the accumulator is closed exactly when it reaches
`batch_size` or the just-appended topic is the last one: the id lists
handed to `batch_search` are the size-`batch_size` groups of the topic
stream with a final partial group of size `N mod batch_size` when
`N mod batch_size ≠ 0`, and no topic is dropped from the batches. -/
theorem run_batch_flush_boundaries {H E : Type} (cfg : Config) (be : Backend H E)
    (topics : List (TopicId × String))
    (hmode : ¬(cfg.batch_size ≤ 1 ∧ cfg.threads ≤ 1)) (hb : 1 ≤ cfg.batch_size)
    (hbe : BackendBatchOk be) :
    batchIdsOf (run cfg be topics) =
      chunksAux cfg.batch_size.toNat [] (topics.map fun p => pyStr p.1) ∧
    (batchIdsOf (run cfg be topics)).map List.length =
      List.replicate (topics.length / cfg.batch_size.toNat) cfg.batch_size.toNat ++
        (if topics.length % cfg.batch_size.toNat = 0 then []
         else [topics.length % cfg.batch_size.toNat]) ∧
    (batchIdsOf (run cfg be topics)).flatten = topics.map fun p => pyStr p.1 := by
  unfold run
  have hbn : 0 < cfg.batch_size.toNat := by omega
  have h1 : batchIdsOf (runLoop cfg be topics.length 0 [] [] topics) =
      chunksAux cfg.batch_size.toNat [] (topics.map fun p => pyStr p.1) :=
    runLoop_batch_ids cfg be topics.length hmode hb hbe topics 0 [] [] (by simp) rfl (by simp)
  refine ⟨h1, ?_, ?_⟩
  · rw [h1]
    cases topics with
    | nil => simp [chunksAux_nil]
    | cons x xs =>
      rw [chunksAux_sizes cfg.batch_size.toNat hbn _ [] (by simpa using hbn) (by simp)]
      simp
  · rw [h1]
    cases topics with
    | nil => simp [chunksAux_nil]
    | cons x xs =>
      rw [chunksAux_flatten cfg.batch_size.toNat _ [] (by simp)]
      simp

theorem run_batch_flush_boundaries_witness :
    (batchIdsOf (run ⟨3, 1, 9, 9⟩ okBackend topics5)).map List.length = [3, 2] :=
  ((run_batch_flush_boundaries ⟨3, 1, 9, 9⟩ okBackend topics5 (by decide) (by decide)
    (pureBackend_ok Unit hitFn).2).2.1).trans (by decide)

/-- C3: for `batch_size > 1` (always batch mode), with unique stringified
topic ids (topic ids are dict keys) and two backends whose
`batch_search` calls return the same id-to-hits associations in possibly
different entry orders, the two runs produce identical traces (hence
identical dispatch sequences), and the sequence of ids written to the
sink is the original topic-source order. -/
theorem run_dispatch_independent_of_mapping_order {H E : Type} (cfg : Config)
    (be₁ be₂ : Backend H E) (topics : List (TopicId × String))
    (hb : 1 < cfg.batch_size)
    (hnd : (topics.map fun p => pyStr p.1).Nodup)
    (hbb : BackendBatchOk be₁)
    (hrel : ∀ texts ids k r th, texts.length = ids.length → ids.Nodup →
      ∃ m₁ m₂, be₁.batch_search texts ids k r th = Except.ok m₁ ∧
        be₂.batch_search texts ids k r th = Except.ok m₂ ∧ m₁.Perm m₂ ∧
        (m₁.map Prod.fst).Nodup) :
    run cfg be₁ topics = run cfg be₂ topics ∧
    (writesOf (run cfg be₁ topics)).map (fun p => pyStr p.1) =
      topics.map fun p => pyStr p.1 := by
  have hmode : ¬(cfg.batch_size ≤ 1 ∧ cfg.threads ≤ 1) := fun ⟨h, _⟩ => by omega
  constructor
  · unfold run
    exact runLoop_batch_congr cfg be₁ be₂ topics.length hmode hrel topics 0 [] [] rfl
      (by simpa using hnd)
  · unfold run
    have h := (runLoop_batch_writes cfg be₁ topics.length hmode hbb topics 0 [] []
      (by simp) rfl (fun _ => rfl)).2
    simpa using h

theorem run_dispatch_independent_of_mapping_order_witness :
    run ⟨2, 1, 3, 4⟩ permBackendA topics5 = run ⟨2, 1, 3, 4⟩ permBackendB topics5 ∧
    (writesOf (run ⟨2, 1, 3, 4⟩ permBackendA topics5)).map (fun p => pyStr p.1) =
      topics5.map fun p => pyStr p.1 :=
  run_dispatch_independent_of_mapping_order ⟨2, 1, 3, 4⟩ permBackendA permBackendB topics5
    (by decide) (by decide) permBackendA_batchOk permBackends_rel

/-- C4 counterexample: with an integer topic id, single mode dispatches
the raw id while batch mode dispatches `str(topic_id)`, so the two
modes' dispatched pairs are not bit-identical on the same deterministic
backend. -/
theorem single_vs_batch_not_bit_identical :
    writesOf (run ⟨5, 4, 1, 1⟩ (pureBackend Unit (fun _ _ _ => (0 : Nat)))
        [(TopicId.intId 1, "a")]) ≠
      writesOf (run ⟨1, 1, 1, 1⟩ (pureBackend Unit (fun _ _ _ => (0 : Nat)))
        [(TopicId.intId 1, "a")]) := by decide

/-- C4 (amended): on the same deterministic backend, a single-mode run
and a batch-mode run with the same `hits` and `rho` dispatch the same
hits in the same order, with the batch-mode id being `str(...)` of the
single-mode id; when all topic ids are already strings, the dispatched
pairs are bit-identical. -/
theorem single_vs_batch_equal_up_to_str {H : Type} (E : Type) (cfg cfg' : Config)
    (f : String → Int → Int → H) (topics : List (TopicId × String))
    (hs : cfg.batch_size ≤ 1 ∧ cfg.threads ≤ 1)
    (hm' : ¬(cfg'.batch_size ≤ 1 ∧ cfg'.threads ≤ 1))
    (hk : cfg'.hits = cfg.hits) (hr : cfg'.rho = cfg.rho)
    (hnd : (topics.map fun p => pyStr p.1).Nodup) :
    writesOf (run cfg' (pureBackend E f) topics) =
      (writesOf (run cfg (pureBackend E f) topics)).map
        (fun w => (TopicId.strId (pyStr w.1), w.2)) ∧
    ((∀ p ∈ topics, ∃ s, p.1 = TopicId.strId s) →
      writesOf (run cfg' (pureBackend E f) topics) =
        writesOf (run cfg (pureBackend E f) topics)) := by
  have hsingle : writesOf (run cfg (pureBackend E f) topics) =
      topics.map fun p => (p.1, f p.2 cfg.hits cfg.rho) := by
    unfold run
    exact writesOf_single cfg (pureBackend E f) (fun t => f t cfg.hits cfg.rho) hs
      (fun t => rfl) _ topics 0 [] []
  have hbatch : writesOf (run cfg' (pureBackend E f) topics) =
      (topics.map fun p => (pyStr p.1, p.2)).map
        (fun q => (TopicId.strId q.1, f q.2 cfg'.hits cfg'.rho)) := by
    unfold run
    have h := runLoop_batch_pure (E := E) cfg' f topics.length hm' topics 0 [] []
      (by simp) rfl (fun _ => rfl) (by simpa using hnd)
    simpa using h
  have hmain : writesOf (run cfg' (pureBackend E f) topics) =
      (writesOf (run cfg (pureBackend E f) topics)).map
        (fun w => (TopicId.strId (pyStr w.1), w.2)) := by
    rw [hbatch, hsingle, hk, hr, List.map_map, List.map_map]
    rfl
  refine ⟨hmain, fun hstr => ?_⟩
  rw [hmain, hsingle, List.map_map]
  refine List.map_congr_left ?_
  intro p hp
  obtain ⟨s, hps⟩ := hstr p hp
  simp [Function.comp, hps, pyStr]

theorem single_vs_batch_equal_up_to_str_witness :
    writesOf (run ⟨5, 4, 2, 3⟩ (pureBackend Unit hitFn) topics5) =
      writesOf (run ⟨1, 1, 2, 3⟩ (pureBackend Unit hitFn) topics5) :=
  (single_vs_batch_equal_up_to_str Unit ⟨1, 1, 2, 3⟩ ⟨5, 4, 2, 3⟩ hitFn topics5 (by decide)
    (by decide) rfl rfl (by decide)).2 (by
      intro p hp
      fin_cases hp <;> exact ⟨_, rfl⟩)

/-- C5: the run operates in single mode exactly when `batch_size ≤ 1`
and `threads ≤ 1`: in that case each topic produces an immediate
`search` call whose result is dispatched before the next topic is
consumed, and `batch_search` is never invoked; otherwise `search` is
never invoked. -/
theorem run_single_mode_iff {H E : Type} (cfg : Config) (be : Backend H E)
    (topics : List (TopicId × String)) (f : String → H)
    (hok : ∀ t, be.search t cfg.hits cfg.rho = Except.ok (f t)) :
    ((cfg.batch_size ≤ 1 ∧ cfg.threads ≤ 1) →
      run cfg be topics = topics.enum.flatMap (fun p =>
        [Ev.enter p.1 [] [], Ev.searchCall p.2.2 cfg.hits cfg.rho,
          Ev.write p.2.1 (f p.2.2)]) ∧
      batchIdsOf (run cfg be topics) = []) ∧
    (¬(cfg.batch_size ≤ 1 ∧ cfg.threads ≤ 1) →
      searchCallsOf (run cfg be topics) = []) := by
  constructor
  · intro hmode
    constructor
    · unfold run
      rw [runLoop_single_trace cfg be f hmode hok topics.length topics 0 [] []]
      rfl
    · unfold run
      exact batchIdsOf_single cfg be f hmode hok _ topics 0 [] []
  · intro hmode
    unfold run
    exact runLoop_batch_no_searchCalls cfg be _ hmode topics 0 [] []

theorem run_single_mode_iff_witness :
    run ⟨1, 1, 4, 7⟩ okBackend topics5 = topics5.enum.flatMap (fun p =>
      [Ev.enter p.1 [] [], Ev.searchCall p.2.2 4 7, Ev.write p.2.1 (hitFn p.2.2 4 7)]) ∧
    batchIdsOf (run ⟨1, 1, 4, 7⟩ okBackend topics5) = [] :=
  (run_single_mode_iff ⟨1, 1, 4, 7⟩ okBackend topics5 (fun t => hitFn t 4 7)
    (fun t => rfl)).1 (by decide)

/-- C6: backend execution errors are not caught by the orchestration
loop and abort the entire run.  (a) In every run, at most one error
occurs and a failure event — a raised `search`, `batch_search` or
`KeyError` — is the final event of the trace: after it no topic is
consumed, no backend call is made and nothing further is dispatched (no
retry, no skip).  (b) In single mode, a `search` that raises after k
successful topics leaves exactly the k earlier dispatches, the
propagated error, k+1 consumed topics, and the failing query as the
last `search` call.  (c) In batch mode, a `batch_search` that raises
aborts the run at its first flush with zero dispatches and exactly one
attempted batch call. -/
theorem run_backend_error_aborts {H E : Type} (cfg : Config) (be : Backend H E)
    (topics : List (TopicId × String)) :
    ((errorsOf (run cfg be topics)).length ≤ 1 ∧
      ∀ e, Ev.fail e ∈ run cfg be topics →
        (run cfg be topics).getLast? = some (Ev.fail e)) ∧
    (∀ (pre post : List (TopicId × String)) (tf : TopicId × String) (e : E)
        (f : String → H),
      cfg.batch_size ≤ 1 ∧ cfg.threads ≤ 1 →
      (∀ p ∈ pre, be.search p.2 cfg.hits cfg.rho = Except.ok (f p.2)) →
      be.search tf.2 cfg.hits cfg.rho = Except.error e →
      topics = pre ++ tf :: post →
      writesOf (run cfg be topics) = (pre.map fun p => (p.1, f p.2)) ∧
        errorsOf (run cfg be topics) = [RunError.backend e] ∧
        (entersOf (run cfg be topics)).length = pre.length + 1 ∧
        searchCallsOf (run cfg be topics) = (pre.map fun p => p.2) ++ [tf.2]) ∧
    (∀ e : E, ¬(cfg.batch_size ≤ 1 ∧ cfg.threads ≤ 1) → topics ≠ [] →
      (∀ texts ids k r th, be.batch_search texts ids k r th = Except.error e) →
      writesOf (run cfg be topics) = [] ∧
        errorsOf (run cfg be topics) = [RunError.backend e] ∧
        (batchIdsOf (run cfg be topics)).length = 1) := by
  refine ⟨?_, ?_, ?_⟩
  · unfold run
    exact runLoop_error_last cfg be topics.length topics 0 [] []
  · intro pre post tf e f hmode hok hfail htopics
    subst htopics
    unfold run
    exact runLoop_single_fail cfg be f e tf post hmode hfail _ pre 0 [] [] hok
  · intro e hmode hne hfe
    unfold run
    exact runLoop_batchfail cfg be topics.length e hmode hfe topics 0 [] [] (by simp) hne

theorem run_backend_error_aborts_witness :
    writesOf (run ⟨1, 1, 4, 7⟩ failBackend topics5) = [(TopicId.strId "q1", 2)] ∧
    errorsOf (run ⟨1, 1, 4, 7⟩ failBackend topics5) = [RunError.backend ()] ∧
    (entersOf (run ⟨1, 1, 4, 7⟩ failBackend topics5)).length = 2 ∧
    writesOf (run ⟨3, 2, 4, 7⟩ batchFailBackend topics5) = [] ∧
    errorsOf (run ⟨3, 2, 4, 7⟩ batchFailBackend topics5) = [RunError.backend ()] ∧
    (batchIdsOf (run ⟨3, 2, 4, 7⟩ batchFailBackend topics5)).length = 1 :=
  have h := (run_backend_error_aborts ⟨1, 1, 4, 7⟩ failBackend topics5).2.1
    [(TopicId.strId "q1", "ta")]
    [(TopicId.strId "q3", "tc"), (TopicId.strId "q4", "td"), (TopicId.strId "q5", "te")]
    (TopicId.strId "q2", "tbb") () (fun t => t.length) (by decide)
    (by intro p hp; fin_cases hp; rfl) (by rfl) rfl
  have h2 := (run_backend_error_aborts ⟨3, 2, 4, 7⟩ batchFailBackend topics5).2.2 ()
    (by decide) (by decide) (fun texts ids k r th => rfl)
  ⟨h.1.trans (by decide), h.2.1, h.2.2.1.trans (by decide), h2.1, h2.2.1, h2.2.2⟩

/-- C7: the writer-resource trace of every run starts with an open and
ends with a close (the `with` block closes the writer on normal and
error exits alike), and on an empty topic source the run performs no
dispatch and leaves a validly closed, empty output resource. -/
theorem run_writer_scoped {H E : Type} (cfg : Config) (be : Backend H E)
    (topics : List (TopicId × String)) :
    (runTrace cfg be topics).head? = some WEv.opened ∧
    (runTrace cfg be topics).getLast? = some WEv.closed ∧
    (topics = [] → runTrace cfg be topics = [WEv.opened, WEv.closed] ∧
      writesOf (run cfg be topics) = [] ∧ errorsOf (run cfg be topics) = []) := by
  refine ⟨rfl, ?_, ?_⟩
  · exact List.getLast?_concat _
  · intro h
    subst h
    exact ⟨rfl, rfl, rfl⟩

theorem run_writer_scoped_witness :
    runTrace ⟨1, 1, 4, 7⟩ okBackend ([] : List (TopicId × String)) =
      [WEv.opened, WEv.closed] ∧
    writesOf (run ⟨1, 1, 4, 7⟩ okBackend ([] : List (TopicId × String))) = [] :=
  ⟨((run_writer_scoped ⟨1, 1, 4, 7⟩ okBackend []).2.2 rfl).1,
   ((run_writer_scoped ⟨1, 1, 4, 7⟩ okBackend []).2.2 rfl).2.1⟩

/-- C8: when `--output` is absent, the output path is the deterministic
function `run.<topics>.rho_<rho>.txt` of the topic-set name and the rho
parameter alone, so identical configurations derive identical names. -/
theorem default_output_path_form (t : String) (rho : Int) :
    output_path_of none t rho = "run." ++ t ++ ".rho_" ++ toString rho ++ ".txt" := by
  show String.intercalate "." ["run", t, String.intercalate "_" ["rho", toString rho], "txt"] = _
  generalize toString rho = r
  obtain ⟨td⟩ := t
  obtain ⟨rd⟩ := r
  simp [String.intercalate, String.intercalate.go, String.append]
  apply String.ext
  simp only [String.data_append]
  simp only [List.append_assoc]
  rfl

/-- C9: loop invariant of batch mode: at the start of every iteration
the two accumulators have equal length, hold exactly the stringified ids
(resp. texts) of the topics consumed since the last flush in arrival
order, that length is `index mod batch_size`, and the code's flush test
`(index + 1) % batch_size == 0` is equivalent to the appended
accumulator having reached `batch_size`. -/
theorem run_batch_loop_invariant {H E : Type} (cfg : Config) (be : Backend H E)
    (topics : List (TopicId × String))
    (hmode : ¬(cfg.batch_size ≤ 1 ∧ cfg.threads ≤ 1)) (hb : 1 ≤ cfg.batch_size) :
    ∀ s ∈ entersOf (run cfg be topics),
      s.2.1.length = s.2.2.length ∧
      s.2.1.length = s.1 % cfg.batch_size.toNat ∧
      s.2.1 = ((topics.drop (s.1 - s.1 % cfg.batch_size.toNat)).take
        (s.1 % cfg.batch_size.toNat)).map (fun p => pyStr p.1) ∧
      s.2.2 = ((topics.drop (s.1 - s.1 % cfg.batch_size.toNat)).take
        (s.1 % cfg.batch_size.toNat)).map Prod.snd ∧
      ((s.1 + 1) % cfg.batch_size.toNat = 0 ↔
        s.2.1.length + 1 = cfg.batch_size.toNat) := by
  intro s hs
  have hbn : 1 ≤ cfg.batch_size.toNat := by omega
  obtain ⟨h1, h2, h3⟩ := runLoop_batch_enters cfg be topics cfg.batch_size.toNat hmode hbn
    (Int.toNat_of_nonneg (by omega)) topics 0 [] [] rfl (by simp) (by simp) (by simp) s hs
  have hmle : s.1 % cfg.batch_size.toNat ≤ s.1 := Nat.mod_le _ _
  have hwlen : ((topics.drop (s.1 - s.1 % cfg.batch_size.toNat)).take
      (s.1 % cfg.batch_size.toNat)).length = s.1 % cfg.batch_size.toNat := by
    rw [List.length_take, List.length_drop]
    omega
  have hl1 : s.2.1.length = s.1 % cfg.batch_size.toNat := by
    rw [h1, List.length_map, hwlen]
  have hl2 : s.2.2.length = s.1 % cfg.batch_size.toNat := by
    rw [h2, List.length_map, hwlen]
  refine ⟨by rw [hl1, hl2], hl1, h1, h2, ?_⟩
  rw [hl1]
  exact mod_succ_eq_zero_iff s.1 _ (by omega)

theorem run_batch_loop_invariant_witness :
    (["q1"] : List String).length = (["ta"] : List String).length ∧
    (["q1"] : List String).length = 1 % (2 : Int).toNat ∧
    (["q1"] : List String) = ((topics5.drop (1 - 1 % (2 : Int).toNat)).take
      (1 % (2 : Int).toNat)).map (fun p => pyStr p.1) ∧
    (["ta"] : List String) = ((topics5.drop (1 - 1 % (2 : Int).toNat)).take
      (1 % (2 : Int).toNat)).map Prod.snd ∧
    ((1 + 1) % (2 : Int).toNat = 0 ↔ (["q1"] : List String).length + 1 = (2 : Int).toNat) :=
  run_batch_loop_invariant ⟨2, 1, 4, 7⟩ okBackend topics5 (by decide) (by decide)
    (1, ["q1"], ["ta"]) (by decide)

/-- C10: under the backend contract's coverage precondition (the mapping
holds an entry for every submitted id), the re-projection
`[(id_, results[id_]) for id_ in batch_topic_ids]` never reaches its
missing-key branch: it returns a pair list whose ids are exactly the
accumulated ids, in order. -/
theorem reproject_total_on_covered_batch {H E : Type} (m : List (String × H))
    (ids : List String) (hcov : ∀ id ∈ ids, (List.lookup id m).isSome) :
    ∃ rs, reproject (E := E) m ids = Except.ok rs ∧ rs.map Prod.fst = ids :=
  reproject_total m ids hcov

theorem reproject_total_on_covered_batch_witness :
    ∃ rs, reproject (E := Unit) [("a", (1 : Nat)), ("b", 2)] ["b", "a"] = Except.ok rs ∧
      rs.map Prod.fst = ["b", "a"] :=
  reproject_total_on_covered_batch [("a", (1 : Nat)), ("b", 2)] ["b", "a"] (by decide)

end JassRun
